import Mathlib

/-!  Shallow embedding of the SysWatch resource monitor (src/main.rs).

Numeric modelling: `f32`/`f64` values are modelled as `ℚ`; a CPU usage that
is NaN (not comparable) is modelled as `none : Option ℚ`, a comparable value
as `some q`.  `u32`/`u64`/`usize` are modelled as `ℕ` (none of the modelled
arithmetic can overflow them).  `std::time::Instant` is modelled as a
rational timestamp.  Rust's byte-lexicographic `Ord` on `String` agrees with
codepoint-lexicographic order, modelled by the linear order on `String`;
`str::to_lowercase` is modelled by per-character lowercasing, which agrees
with Rust on ASCII input. -/

namespace SysWatch

/-- Mirror of `struct ProcessInfo` (src/main.rs lines 10-19). -/
structure ProcessInfo where
  name : String
  pid : Nat
  cpu_usage : Option ℚ
  memory_usage : Nat
  status : String
  user : Option String
  command_line : Option String
deriving DecidableEq

/-- Disk kind as reported by the telemetry provider (`sysinfo::DiskKind`). -/
inductive DiskKind
  | ssd
  | hdd
  | other
deriving DecidableEq

/-- Mirror of `struct DiskInfo` (lines 22-31). -/
structure DiskInfo where
  name : String
  total_space : Nat
  available_space : Nat
  used_space : Nat
  usage_percent : ℚ
  disk_type : String
  file_system : String
deriving DecidableEq

/-- Mirror of `enum SortColumn` (lines 69-76). -/
inductive SortColumn
  | Name
  | Cpu
  | Memory
  | Status
deriving DecidableEq

/-- A raw process descriptor as yielded by `self.system.processes()`:
pid, OS-provided name (possibly empty), cpu usage (possibly NaN), memory,
status (already `Debug`-formatted to a string), user id rendered as a
string, and the command-line fragments. -/
structure RawProcess where
  pid : Nat
  name : String
  cpu_usage : Option ℚ
  memory : Nat
  status : String
  user : Option String
  cmd : List String
deriving DecidableEq

/-- A raw disk descriptor as yielded by `Disks::new_with_refreshed_list()`. -/
structure RawDisk where
  name : String
  total_space : Nat
  available_space : Nat
  kind : DiskKind
  file_system : String
deriving DecidableEq

/-- The modelled fields of `struct ResourceMonitor` (lines 42-61).  The
`system` handle is the external telemetry provider and appears as tick
input instead; purely visual fields (`show_system_info`, `show_disk_info`,
`show_charts`, `row_height`, `hovered_row`) are omitted. -/
structure ResourceMonitor where
  processes : List ProcessInfo
  disks : List DiskInfo
  process_indices : List Nat
  sort_column : SortColumn
  sort_descending : Bool
  selected_pid : Option Nat
  update_interval : ℚ
  last_update : ℚ
  history : List (ℚ × ℚ)
  max_history_points : Nat
  process_filter : String
  energy_saving_mode : Bool
deriving DecidableEq

/-- The external inputs consumed by one call of `ResourceMonitor::update`
(lines 147-226): the current instant, the viewport focus flag, and the
telemetry pulled via `refresh_cpu`/`refresh_processes`/
`Disks::new_with_refreshed_list`/`global_cpu_info`/`used_memory`. -/
structure TickInput where
  now : ℚ
  is_focused : Bool
  raw_processes : List RawProcess
  raw_disks : List RawDisk
  total_cpu : ℚ
  used_memory : Nat
deriving DecidableEq

/-- Character-wise lowercasing of a string, modelling `str::to_lowercase`
(lines 184-185); agrees with Rust on ASCII characters. -/
def lowerSeq (s : String) : List Char := s.data.map Char.toLower

/-- Tests whether `pat` is a prefix of the second list. -/
def prefixSeq : List Char → List Char → Bool
  | [], _ => true
  | _ :: _, [] => false
  | a :: as, b :: bs => a == b && prefixSeq as bs

/-- Tests whether `pat` occurs contiguously in the second list, modelling
`str::contains` (line 185). -/
def containsSeq (pat : List Char) : List Char → Bool
  | [] => pat.isEmpty
  | c :: rest => prefixSeq pat (c :: rest) || containsSeq pat rest

/-- Display-name synthesis (lines 177-181): an empty OS name is replaced by
the label `"PID: <pid>"`. -/
def displayName (r : RawProcess) : String :=
  if r.name = "" then "PID: " ++ toString r.pid else r.name

/-- The `ProcessInfo` record built for one raw entry (lines 191-206);
`command_line` takes the first command fragment, if any. -/
def mkProcessInfo (r : RawProcess) (name : String) : ProcessInfo :=
  { name := name
    pid := r.pid
    cpu_usage := r.cpu_usage
    memory_usage := r.memory
    status := r.status
    user := r.user
    command_line := r.cmd.head? }

/-- The ingestion loop of `ResourceMonitor::update` (lines 174-209):
derive the display name, skip the entry when a non-empty filter is not a
case-insensitive substring of it, otherwise push the built record. -/
def ingest (filt : String) : List RawProcess → List ProcessInfo
  | [] => []
  | r :: rs =>
    let name := displayName r
    if (filt != "") && !containsSeq (lowerSeq filt) (lowerSeq name) then
      ingest filt rs
    else
      mkProcessInfo r name :: ingest filt rs

/-- Three-way comparison on a linear order: the model of `Ord::cmp` and of
`PartialOrd::partial_cmp` on comparable values. -/
def cmp3 {α : Type} [LinearOrder α] (a b : α) : Ordering :=
  if a < b then .lt else if b < a then .gt else .eq

/-- Model of `partial_cmp(..).unwrap_or(Ordering::Equal)` on `f32`
(lines 276-278): any comparison involving NaN yields `Equal`. -/
def cpuCmp : Option ℚ → Option ℚ → Ordering
  | some a, some b => cmp3 a b
  | _, _ => .eq

/-- The per-key record comparator of `sort_process_indices`
(lines 267-294). -/
def keyCmp : SortColumn → ProcessInfo → ProcessInfo → Ordering
  | .Name, p, q => cmp3 p.name q.name
  | .Cpu, p, q => cpuCmp p.cpu_usage q.cpu_usage
  | .Memory, p, q => cmp3 p.memory_usage q.memory_usage
  | .Status, p, q => cmp3 p.status q.status

/-- Application of `Ordering::reverse` when the descending flag is set
(lines 271, 279, 285, 291). -/
def dirCmp (desc : Bool) (c : Ordering) : Ordering :=
  if desc then c.swap else c

/-- Default record used to give `List.getD` a value; the sort only ever
looks up indices below the cache length. -/
def dfltInfo : ProcessInfo :=
  { name := ""
    pid := 0
    cpu_usage := some 0
    memory_usage := 0
    status := ""
    user := none
    command_line := none }

/-- The full index comparator used by the sort (lines 267-294): look the
two indices up in the cache, compare by the active key, reverse when
descending. -/
def entryCmp (cache : List ProcessInfo) (col : SortColumn) (desc : Bool)
    (a b : Nat) : Ordering :=
  dirCmp desc (keyCmp col (cache.getD a dfltInfo) (cache.getD b dfltInfo))

/-- Truth of `cmp(a, b) != Ordering::Greater`, the element-order test of a
stable ascending sort. -/
def ordNotGt : Ordering → Bool
  | .gt => false
  | _ => true

/-- Truth of `cmp(a, b) == Ordering::Less`, the `is_less` test driving
`Vec::sort_by`. -/
def ordIsLt : Ordering → Bool
  | .lt => true
  | _ => false

/-- One insertion step of Rust's stable insertion sort, acting on the
reversed processed prefix: the incoming element `x` moves left past each
neighbour `y` exactly while `is_less x y`. -/
def insertRev {α : Type} (lt : α → α → Bool) (x : α) : List α → List α
  | [] => [x]
  | y :: r => if lt x y then y :: insertRev lt x r else x :: y :: r

/-- Worker of `vecSortBy`: fold the remaining elements into the reversed
processed prefix, then restore order. -/
def sortRevAux {α : Type} (lt : α → α → Bool) : List α → List α → List α
  | acc, [] => acc.reverse
  | acc, x :: xs => sortRevAux lt (insertRev lt x acc) xs

/-- Model of `Vec::sort_by` with `is_less a b := cmp(a, b) == Less`: the
stable insertion sort Rust's slice sort runs on short slices (each element
shifts left while it is `Less` than its left neighbour).  For a comparator
that is a total order, this output is the unique stable sorted permutation,
which is the behaviour `sort_by` documents at every length; for an
inconsistent comparator (the NaN-as-Equal Cpu comparator) `sort_by`
promises only some permutation, and this model reproduces the small-slice
insertion sort the implementation actually performs. -/
def vecSortBy {α : Type} (lt : α → α → Bool) (l : List α) : List α :=
  sortRevAux lt [] l

/-- `ResourceMonitor::sort_process_indices` (lines 262-295): regenerate the
identity permutation when the cardinality changed, then stably re-sort the
index buffer by the chosen key via `Vec::sort_by`, modelled by the stable
insertion sort `vecSortBy`. -/
def sort_process_indices (cache : List ProcessInfo) (prev : List Nat)
    (col : SortColumn) (desc : Bool) : List Nat :=
  let idx := if prev.length ≠ cache.length then List.range cache.length else prev
  vecSortBy (fun a b => ordIsLt (entryCmp cache col desc a b)) idx

/-- One chart-history push (lines 220-223): pop the oldest sample when at
capacity, then append the new one at the back. -/
def historyPush (maxPoints : Nat) (h : List (ℚ × ℚ)) (x : ℚ × ℚ) :
    List (ℚ × ℚ) :=
  (if h.length ≥ maxPoints then h.drop 1 else h) ++ [x]

/-- The effective refresh interval computed each tick (lines 150-158). -/
def effective_interval (m : ResourceMonitor) (is_focused : Bool) : ℚ :=
  if is_focused then
    if m.energy_saving_mode then m.update_interval * 2
    else m.update_interval
  else m.update_interval * 5

/-- The per-disk derivation of `update_disk_info` (lines 233-258), also
performed in `new` (lines 95-122): saturating used-space subtraction and a
division-guarded usage percentage. -/
def diskOf (d : RawDisk) : DiskInfo :=
  let used_space := d.total_space - d.available_space
  let usage_percent : ℚ :=
    if d.total_space > 0 then
      (used_space : ℚ) / (d.total_space : ℚ) * 100
    else 0
  { name := d.name
    total_space := d.total_space
    available_space := d.available_space
    used_space := used_space
    usage_percent := usage_percent
    disk_type :=
      match d.kind with
      | .ssd => "SSD"
      | .hdd => "HDD"
      | .other => "Unknown"
    file_system := d.file_system }

/-- `ResourceMonitor::update_disk_info` (lines 228-260): rebuild the disk
list from the freshly enumerated disks. -/
def update_disk_info (raw : List RawDisk) : List DiskInfo :=
  raw.map diskOf

/-- `ResourceMonitor::update` (lines 147-226), the per-tick scheduler and
refresh: decline (returning the state unchanged) when the elapsed time is
below the effective interval; otherwise stamp `last_update`, re-ingest the
process cache, re-sort the rank index, refresh disks when the elapsed time
exceeds twice the base interval, and push a history sample. -/
def ResourceMonitor.update (m : ResourceMonitor) (inp : TickInput) :
    ResourceMonitor :=
  let eff := effective_interval m inp.is_focused
  let time_since_update := inp.now - m.last_update
  if time_since_update < eff then m
  else
    let processes := ingest m.process_filter inp.raw_processes
    let indices :=
      sort_process_indices processes m.process_indices m.sort_column
        m.sort_descending
    let disks :=
      if time_since_update > m.update_interval * 2 then
        update_disk_info inp.raw_disks
      else m.disks
    { m with
      last_update := inp.now
      processes := processes
      process_indices := indices
      disks := disks
      history :=
        historyPush m.max_history_points m.history
          (inp.total_cpu, (inp.used_memory : ℚ) / 1024 / 1024) }

/-- The sort-column header click handlers of `render_process_table`
(lines 492-547): clicking the active column toggles the descending flag;
clicking a different column selects it with its hard-coded initial
direction (`false` for Name and Status, `true` for Cpu and Memory); either
way the indices are re-sorted. -/
def header_click (m : ResourceMonitor) (col : SortColumn) : ResourceMonitor :=
  let m' :=
    match col with
    | .Name =>
      if m.sort_column = SortColumn.Name then
        { m with sort_descending := !m.sort_descending }
      else { m with sort_column := .Name, sort_descending := false }
    | .Cpu =>
      if m.sort_column = SortColumn.Cpu then
        { m with sort_descending := !m.sort_descending }
      else { m with sort_column := .Cpu, sort_descending := true }
    | .Memory =>
      if m.sort_column = SortColumn.Memory then
        { m with sort_descending := !m.sort_descending }
      else { m with sort_column := .Memory, sort_descending := true }
    | .Status =>
      if m.sort_column = SortColumn.Status then
        { m with sort_descending := !m.sort_descending }
      else { m with sort_column := .Status, sort_descending := false }
  { m' with
    process_indices :=
      sort_process_indices m'.processes m'.process_indices m'.sort_column
        m'.sort_descending }

/-- The key-specific default direction encoded in the header click
handlers: descending for Cpu and Memory, ascending for Name and Status. -/
def defaultDescending : SortColumn → Bool
  | .Cpu => true
  | .Memory => true
  | .Name => false
  | .Status => false

/-- The row-click selection write (lines 586-592). -/
def select_row (m : ResourceMonitor) (pid : Nat) : ResourceMonitor :=
  { m with selected_pid := some pid }

/-- The `Update now` button handler (lines 330-333): move `last_update`
back by the base interval. -/
def force_update (m : ResourceMonitor) (now : ℚ) : ResourceMonitor :=
  { m with last_update := now - m.update_interval }

/-- Abstract form of the index comparator: compare two indices through a
key-extraction function `g` into a linear order, reversing when
descending.  Each concrete column comparator of `sort_process_indices` is
an instance of this shape (for Cpu only on NaN-free caches). -/
def leG {β : Type} [LinearOrder β] (g : Nat → β) (desc : Bool) (a b : Nat) : Bool :=
  ordNotGt (dirCmp desc (cmp3 (g a) (g b)))

/-- Abstract form of the strict index comparator (`is_less`) through a
key-extraction function `g` into a linear order. -/
def ltG {β : Type} [LinearOrder β] (g : Nat → β) (desc : Bool) (a b : Nat) : Bool :=
  ordIsLt (dirCmp desc (cmp3 (g a) (g b)))

/-- Folding a whole sequence of samples into an initially empty history
ring of capacity 100 (the `max_history_points` set in `new`, line 136),
one `historyPush` per tick. -/
def pushAll (xs : List (ℚ × ℚ)) : List (ℚ × ℚ) :=
  xs.foldl (historyPush 100) []

/-- UI write of the filter text (the `TextEdit` bound to `process_filter`,
lines 483-486). -/
def set_filter (m : ResourceMonitor) (s : String) : ResourceMonitor :=
  { m with process_filter := s }

/-- A sample monitor state used to instantiate universally quantified
theorems at concrete inputs. -/
def m0 : ResourceMonitor :=
  { processes := []
    disks := []
    process_indices := []
    sort_column := SortColumn.Name
    sort_descending := false
    selected_pid := some 7
    update_interval := 1
    last_update := 0
    history := []
    max_history_points := 100
    process_filter := ""
    energy_saving_mode := false }

/-- A sample tick input whose elapsed time (10) exceeds any effective
interval of `m0`. -/
def inpGo : TickInput :=
  { now := 10
    is_focused := true
    raw_processes := []
    raw_disks := []
    total_cpu := 3
    used_memory := 1024 }

/-- A sample tick input arriving too early for `m0` (elapsed 1/2 < 1). -/
def inpSkip : TickInput :=
  { now := 1 / 2
    is_focused := true
    raw_processes := []
    raw_disks := []
    total_cpu := 3
    used_memory := 1024 }

/-- The three-entry cache of the spec example: `Chrome.exe`,
`chromedriver`, `Notepad`. -/
def rawChrome : List RawProcess :=
  [{ pid := 101, name := "Chrome.exe", cpu_usage := some 10, memory := 1000,
     status := "Runnable", user := none, cmd := [] },
   { pid := 102, name := "chromedriver", cpu_usage := some 5, memory := 2000,
     status := "Runnable", user := none, cmd := [] },
   { pid := 103, name := "Notepad", cpu_usage := some 1, memory := 500,
     status := "Runnable", user := none, cmd := [] }]

/-- A raw entry with an empty OS name and pid 4242. -/
def rawAnon : RawProcess :=
  { pid := 4242, name := "", cpu_usage := some 0, memory := 0,
    status := "Runnable", user := none, cmd := [] }

/-- A three-entry cache with one NaN cpu value and otherwise pairwise
distinct cpu values. -/
def cacheNaN3 : List ProcessInfo :=
  [{ dfltInfo with name := "a", cpu_usage := none },
   { dfltInfo with name := "b", cpu_usage := some 1 },
   { dfltInfo with name := "c", cpu_usage := some 2 }]

/-- A sample disk descriptor with total 1000 and available 250 bytes. -/
def diskSample : RawDisk :=
  { name := "C:", total_space := 1000, available_space := 250,
    kind := DiskKind.ssd, file_system := "NTFS" }

/-- A three-entry cache whose cpu values are all comparable and pairwise
distinct. -/
def cacheCmp : List ProcessInfo :=
  [{ dfltInfo with name := "a", cpu_usage := some 3 },
   { dfltInfo with name := "b", cpu_usage := some 1 },
   { dfltInfo with name := "c", cpu_usage := some 2 }]

/-! ### Comparator laws -/

theorem ordNotGt_true_iff {c : Ordering} : ordNotGt c = true ↔ c ≠ Ordering.gt := by
  cases c <;> simp [ordNotGt]

theorem cmp3_swap {β : Type} [LinearOrder β] (a b : β) :
    (cmp3 a b).swap = cmp3 b a := by
  rcases lt_trichotomy a b with h | rfl | h
  · simp [cmp3, h, lt_asymm h, Ordering.swap]
  · simp [cmp3, lt_irrefl, Ordering.swap]
  · simp [cmp3, h, lt_asymm h, Ordering.swap]

theorem cmp3_eq_eq_iff {β : Type} [LinearOrder β] {a b : β} :
    cmp3 a b = Ordering.eq ↔ a = b := by
  rcases lt_trichotomy a b with h | rfl | h
  · simp [cmp3, h, ne_of_lt h]
  · simp [cmp3, lt_irrefl]
  · simp [cmp3, h, lt_asymm h, (ne_of_lt h).symm]

theorem ordNotGt_cmp3 {β : Type} [LinearOrder β] {a b : β} :
    ordNotGt (cmp3 a b) = true ↔ a ≤ b := by
  rw [ordNotGt_true_iff]
  rcases lt_trichotomy a b with h | rfl | h
  · simp [cmp3, h, le_of_lt h]
  · simp [cmp3, lt_irrefl]
  · simp [cmp3, h, lt_asymm h, not_le.mpr h]

theorem cpuCmp_swap (x y : Option ℚ) : (cpuCmp x y).swap = cpuCmp y x := by
  cases x <;> cases y
  · rfl
  · rfl
  · rfl
  · exact cmp3_swap _ _

theorem keyCmp_swap (col : SortColumn) (p q : ProcessInfo) :
    (keyCmp col p q).swap = keyCmp col q p := by
  cases col <;> simp [keyCmp, cmp3_swap, cpuCmp_swap]

theorem leG_false_iff {β : Type} [LinearOrder β] {g : Nat → β} {a b : Nat} :
    leG g false a b = true ↔ g a ≤ g b := by
  simp only [leG, dirCmp, Bool.false_eq_true, if_false]
  exact ordNotGt_cmp3

theorem leG_true_iff {β : Type} [LinearOrder β] {g : Nat → β} {a b : Nat} :
    leG g true a b = true ↔ g b ≤ g a := by
  simp only [leG, dirCmp, if_true, cmp3_swap]
  exact ordNotGt_cmp3

theorem leG_trans {β : Type} [LinearOrder β] {g : Nat → β} {desc : Bool} :
    ∀ a b c : Nat, leG g desc a b → leG g desc b c → leG g desc a c := by
  cases desc <;> intro a b c h1 h2
  · exact leG_false_iff.mpr (le_trans (leG_false_iff.mp h1) (leG_false_iff.mp h2))
  · exact leG_true_iff.mpr (le_trans (leG_true_iff.mp h2) (leG_true_iff.mp h1))

theorem leG_total {β : Type} [LinearOrder β] {g : Nat → β} {desc : Bool} :
    ∀ a b : Nat, leG g desc a b || leG g desc b a := by
  cases desc <;> intro a b
  · rcases le_total (g a) (g b) with h | h
    · simp [leG_false_iff.mpr h]
    · simp [leG_false_iff.mpr h]
  · rcases le_total (g a) (g b) with h | h
    · simp [leG_true_iff.mpr h]
    · simp [leG_true_iff.mpr h]

theorem leG_anti {β : Type} [LinearOrder β] {g : Nat → β} {desc : Bool} {a b : Nat}
    (h1 : leG g desc a b = true) (h2 : leG g desc b a = true) : g a = g b := by
  cases desc
  · exact le_antisymm (leG_false_iff.mp h1) (leG_false_iff.mp h2)
  · exact le_antisymm (leG_true_iff.mp h2) (leG_true_iff.mp h1)

theorem leG_flip {β : Type} [LinearOrder β] (g : Nat → β) (desc : Bool) :
    leG g (!desc) = fun a b => leG g desc b a := by
  funext a b
  cases desc <;> simp only [leG, dirCmp, Bool.not_false, Bool.not_true,
    if_true, Bool.false_eq_true, if_false, cmp3_swap]

/-! ### Stable-sort lemmas -/

theorem eq_of_perm_of_sortedB {α : Type} (le : α → α → Bool) :
    ∀ (l₁ l₂ : List α), List.Perm l₁ l₂ →
      l₁.Pairwise (fun a b => le a b = true) →
      l₂.Pairwise (fun a b => le a b = true) →
      (∀ a ∈ l₁, ∀ b ∈ l₁, le a b = true → le b a = true → a = b) →
      l₁ = l₂
  | [], _, h, _, _, _ => h.nil_eq
  | a :: t₁, [], h, _, _, _ => absurd h.eq_nil (by simp)
  | a :: t₁, b :: t₂, h, p₁, p₂, anti => by
    obtain ⟨pa, pt₁⟩ := List.pairwise_cons.mp p₁
    obtain ⟨pb, pt₂⟩ := List.pairwise_cons.mp p₂
    have hab : a = b := by
      by_contra hne
      have ha₂ : a ∈ b :: t₂ := h.subset (List.mem_cons_self a t₁)
      have hb₁ : b ∈ a :: t₁ := h.symm.subset (List.mem_cons_self b t₂)
      have ha' : a ∈ t₂ := by
        rcases List.mem_cons.mp ha₂ with h' | h'
        · exact absurd h' hne
        · exact h'
      have hb' : b ∈ t₁ := by
        rcases List.mem_cons.mp hb₁ with h' | h'
        · exact absurd h'.symm hne
        · exact h'
      exact hne (anti a (List.mem_cons_self a t₁) b (List.mem_cons_of_mem a hb')
        (pa b hb') (pb a ha'))
    subst hab
    have ht : List.Perm t₁ t₂ := h.cons_inv
    have := eq_of_perm_of_sortedB le t₁ t₂ ht pt₁ pt₂
      (fun x hx y hy => anti x (List.mem_cons_of_mem a hx) y (List.mem_cons_of_mem a hy))
    rw [this]

theorem ordIsLt_cmp3 {β : Type} [LinearOrder β] {a b : β} :
    ordIsLt (cmp3 a b) = true ↔ a < b := by
  rcases lt_trichotomy a b with h | rfl | h
  · simp [cmp3, h, ordIsLt]
  · simp [cmp3, lt_irrefl, ordIsLt]
  · simp [cmp3, h, lt_asymm h, ordIsLt]

theorem ltG_lt_false_iff {β : Type} [LinearOrder β] {g : Nat → β} {a b : Nat} :
    ltG g false a b = true ↔ g a < g b := by
  simp only [ltG, dirCmp, Bool.false_eq_true, if_false]
  exact ordIsLt_cmp3

theorem ltG_lt_true_iff {β : Type} [LinearOrder β] {g : Nat → β} {a b : Nat} :
    ltG g true a b = true ↔ g b < g a := by
  simp only [ltG, dirCmp, if_true, cmp3_swap]
  exact ordIsLt_cmp3

theorem ltG_asym {β : Type} [LinearOrder β] (g : Nat → β) (desc : Bool) :
    ∀ a b : Nat, ltG g desc a b = true → ltG g desc b a = false := by
  cases desc <;> intro a b h
  · cases hval : ltG g false b a
    · rfl
    · exact absurd (ltG_lt_false_iff.mp hval) (lt_asymm (ltG_lt_false_iff.mp h))
  · cases hval : ltG g true b a
    · rfl
    · exact absurd (ltG_lt_true_iff.mp hval) (lt_asymm (ltG_lt_true_iff.mp h))

theorem ltG_false_iff_leG {β : Type} [LinearOrder β] {g : Nat → β} {desc : Bool}
    {a b : Nat} : ltG g desc b a = false ↔ leG g desc a b = true := by
  cases desc
  · constructor
    · intro h
      refine leG_false_iff.mpr (not_lt.mp fun hc => ?_)
      rw [ltG_lt_false_iff.mpr hc] at h
      simp at h
    · intro h
      have hnot : ¬ g b < g a := not_lt.mpr (leG_false_iff.mp h)
      cases hval : ltG g false b a
      · rfl
      · exact absurd (ltG_lt_false_iff.mp hval) hnot
  · constructor
    · intro h
      refine leG_true_iff.mpr (not_lt.mp fun hc => ?_)
      rw [ltG_lt_true_iff.mpr hc] at h
      simp at h
    · intro h
      have hnot : ¬ g a < g b := not_lt.mpr (leG_true_iff.mp h)
      cases hval : ltG g true b a
      · rfl
      · exact absurd (ltG_lt_true_iff.mp hval) hnot

theorem ltG_flip {β : Type} [LinearOrder β] (g : Nat → β) (desc : Bool) :
    ltG g (!desc) = fun a b => ltG g desc b a := by
  funext a b
  cases desc <;> simp only [ltG, dirCmp, Bool.not_false, Bool.not_true,
    if_true, Bool.false_eq_true, if_false, cmp3_swap]

theorem entryCmp_swap (cache : List ProcessInfo) (col : SortColumn) (desc : Bool)
    (a b : Nat) :
    (entryCmp cache col desc a b).swap = entryCmp cache col desc b a := by
  cases desc
  · exact keyCmp_swap col _ _
  · have h := keyCmp_swap col (cache.getD a dfltInfo) (cache.getD b dfltInfo)
    show ((keyCmp col (cache.getD a dfltInfo) (cache.getD b dfltInfo)).swap).swap
        = (keyCmp col (cache.getD b dfltInfo) (cache.getD a dfltInfo)).swap
    rw [h]

theorem entry_lt_asym (cache : List ProcessInfo) (col : SortColumn) (desc : Bool) :
    ∀ a b : Nat, ordIsLt (entryCmp cache col desc a b) = true →
      ordIsLt (entryCmp cache col desc b a) = false := by
  intro a b h
  have hsw := entryCmp_swap cache col desc a b
  cases hc : entryCmp cache col desc a b <;> rw [hc] at h hsw
  · rw [← hsw]
    rfl
  · simp [ordIsLt] at h
  · simp [ordIsLt] at h

theorem insertRev_perm {α : Type} (lt : α → α → Bool) (x : α) :
    ∀ r : List α, List.Perm (insertRev lt x r) (x :: r)
  | [] => List.Perm.refl _
  | y :: r => by
    simp only [insertRev]
    split
    · exact ((insertRev_perm lt x r).cons y).trans (List.Perm.swap x y r)
    · exact List.Perm.refl _

theorem sortRevAux_perm {α : Type} (lt : α → α → Bool) :
    ∀ (l acc : List α), List.Perm (sortRevAux lt acc l) (acc ++ l)
  | [], acc => by
    simp only [sortRevAux]
    simp only [List.append_nil]
    exact List.reverse_perm acc
  | x :: xs, acc => by
    simp only [sortRevAux]
    refine (sortRevAux_perm lt xs (insertRev lt x acc)).trans ?_
    refine ((insertRev_perm lt x acc).append_right xs).trans ?_
    exact List.perm_middle.symm

theorem vecSortBy_perm {α : Type} (lt : α → α → Bool) (l : List α) :
    List.Perm (vecSortBy lt l) l := by
  simpa [vecSortBy] using sortRevAux_perm lt l []

theorem chain'_insertRev {α : Type} (lt : α → α → Bool)
    (hasym : ∀ a b : α, lt a b = true → lt b a = false) (x : α) :
    ∀ r : List α, List.Chain' (fun v u => lt v u = false) r →
      List.Chain' (fun v u => lt v u = false) (insertRev lt x r)
  | [], _ => by simp [insertRev]
  | y :: r, hr => by
    simp only [insertRev]
    by_cases hxy : lt x y = true
    · rw [if_pos hxy]
      have ih := chain'_insertRev lt hasym x r hr.tail
      refine List.chain'_cons'.mpr ⟨?_, ih⟩
      intro h hh
      cases r with
      | nil =>
        simp [insertRev] at hh
        subst hh
        exact hasym x y hxy
      | cons z r' =>
        simp only [insertRev] at hh
        by_cases hxz : lt x z = true
        · rw [if_pos hxz] at hh
          simp at hh
          subst hh
          exact (List.chain'_cons.mp hr).1
        · rw [if_neg hxz] at hh
          simp at hh
          subst hh
          exact hasym x y hxy
    · rw [if_neg hxy]
      exact List.chain'_cons.mpr ⟨by simpa using hxy, hr⟩

theorem chain'_sortRevAux {α : Type} (lt : α → α → Bool)
    (hasym : ∀ a b : α, lt a b = true → lt b a = false) :
    ∀ (l acc : List α), List.Chain' (fun v u => lt v u = false) acc →
      List.Chain' (fun a b => lt b a = false) (sortRevAux lt acc l)
  | [], acc, hacc => by
    simp only [sortRevAux]
    exact List.chain'_reverse.mpr hacc
  | x :: xs, acc, hacc =>
    chain'_sortRevAux lt hasym xs (insertRev lt x acc)
      (chain'_insertRev lt hasym x acc hacc)

theorem vecSortBy_locally_sorted {α : Type} (lt : α → α → Bool)
    (hasym : ∀ a b : α, lt a b = true → lt b a = false) (l : List α) :
    List.Chain' (fun a b => lt b a = false) (vecSortBy lt l) :=
  chain'_sortRevAux lt hasym l [] List.chain'_nil

theorem sortRevAux_of_chain' {α : Type} (lt : α → α → Bool) :
    ∀ (l acc : List α),
      List.Chain' (fun a b => lt b a = false) (acc.reverse ++ l) →
      sortRevAux lt acc l = acc.reverse ++ l
  | [], acc, _ => by
    simp only [sortRevAux]
    exact (List.append_nil _).symm
  | x :: xs, acc, h => by
    simp only [sortRevAux]
    have hins : insertRev lt x acc = x :: acc := by
      cases acc with
      | nil => rfl
      | cons y r =>
        have hjun : lt x y = false := by
          have hch := (List.chain'_append.mp h).2.2
          have hy : (y :: r).reverse.getLast? = some y := by
            rw [List.getLast?_reverse]
            rfl
          exact hch y (by rw [hy]; rfl) x rfl
        simp only [insertRev]
        rw [if_neg (by simp [hjun])]
    rw [hins]
    have hch' : List.Chain' (fun a b => lt b a = false) ((x :: acc).reverse ++ xs) := by
      simpa [List.reverse_cons, List.append_assoc] using h
    rw [sortRevAux_of_chain' lt xs (x :: acc) hch']
    simp [List.reverse_cons, List.append_assoc]

theorem vecSortBy_of_chain' {α : Type} (lt : α → α → Bool) (l : List α)
    (h : List.Chain' (fun a b => lt b a = false) l) : vecSortBy lt l = l := by
  have := sortRevAux_of_chain' lt l [] (by simpa using h)
  simpa [vecSortBy] using this

theorem vecSortBy_idem {α : Type} (lt : α → α → Bool)
    (hasym : ∀ a b : α, lt a b = true → lt b a = false) (l : List α) :
    vecSortBy lt (vecSortBy lt l) = vecSortBy lt l :=
  vecSortBy_of_chain' lt _ (vecSortBy_locally_sorted lt hasym l)

theorem pairwise_vecSortBy {β : Type} [LinearOrder β] (g : Nat → β) (desc : Bool)
    (l : List Nat) :
    (vecSortBy (ltG g desc) l).Pairwise (fun a b => leG g desc a b = true) := by
  have hchain := vecSortBy_locally_sorted (ltG g desc) (ltG_asym g desc) l
  have hchain' : List.Chain' (fun a b => leG g desc a b = true)
      (vecSortBy (ltG g desc) l) :=
    hchain.imp fun a b hab => ltG_false_iff_leG.mp hab
  haveI : IsTrans Nat fun a b => leG g desc a b = true := ⟨leG_trans⟩
  exact List.chain'_iff_pairwise.mp hchain'

theorem sort_process_indices_def (cache : List ProcessInfo) (prev : List Nat)
    (col : SortColumn) (desc : Bool) :
    sort_process_indices cache prev col desc =
      vecSortBy (fun a b => ordIsLt (entryCmp cache col desc a b))
        (if prev.length ≠ cache.length then List.range cache.length else prev) := rfl

theorem sort_eq_vecSortBy {β : Type} [LinearOrder β] (cache : List ProcessInfo)
    (col : SortColumn) (g : Nat → β)
    (hK : ∀ a b : Nat,
      keyCmp col (cache.getD a dfltInfo) (cache.getD b dfltInfo) = cmp3 (g a) (g b))
    (prev : List Nat) (desc : Bool) :
    sort_process_indices cache prev col desc =
      vecSortBy (ltG g desc)
        (if prev.length ≠ cache.length then List.range cache.length else prev) := by
  have h : (fun a b => ordIsLt (entryCmp cache col desc a b)) = ltG g desc := by
    funext a b
    rw [entryCmp, hK]
    rfl
  rw [sort_process_indices_def, h]

theorem length_sort (cache : List ProcessInfo) (prev : List Nat) (col : SortColumn)
    (desc : Bool) : (sort_process_indices cache prev col desc).length = cache.length := by
  rw [sort_process_indices_def]
  rw [(vecSortBy_perm _ _).length_eq]
  split
  · exact List.length_range _
  · next hc => exact not_not.mp hc

theorem mem_sort_lt (cache : List ProcessInfo) (prev : List Nat) (col : SortColumn)
    (desc : Bool) (hprev : List.Perm prev (List.range cache.length)) :
    ∀ x ∈ sort_process_indices cache prev col desc, x < cache.length := by
  intro x hx
  rw [sort_process_indices_def] at hx
  have hx' := (vecSortBy_perm _ _).subset hx
  by_cases hc : prev.length ≠ cache.length
  · rw [if_pos hc] at hx'
    exact List.mem_range.mp hx'
  · rw [if_neg hc] at hx'
    exact List.mem_range.mp (hprev.subset hx')

theorem sort_core_idem (cache : List ProcessInfo) (prev : List Nat)
    (col : SortColumn) (desc : Bool) :
    sort_process_indices cache (sort_process_indices cache prev col desc) col desc
      = sort_process_indices cache prev col desc := by
  have hlen := length_sort cache prev col desc
  rw [sort_process_indices_def cache (sort_process_indices cache prev col desc) col desc]
  rw [if_neg (by rw [hlen]; exact fun hc => hc rfl)]
  rw [sort_process_indices_def cache prev col desc]
  exact vecSortBy_idem _ (entry_lt_asym cache col desc) _

theorem sort_core_flip {β : Type} [LinearOrder β] (cache : List ProcessInfo)
    (col : SortColumn) (g : Nat → β)
    (hK : ∀ a b : Nat,
      keyCmp col (cache.getD a dfltInfo) (cache.getD b dfltInfo) = cmp3 (g a) (g b))
    (prev : List Nat) (desc : Bool)
    (hprev : List.Perm prev (List.range cache.length))
    (hinj : ∀ a b : Nat, a < cache.length → b < cache.length → g a = g b → a = b) :
    sort_process_indices cache (sort_process_indices cache prev col desc) col (!desc)
      = (sort_process_indices cache prev col desc).reverse := by
  have hlen := length_sort cache prev col desc
  have hmem := mem_sort_lt cache prev col desc hprev
  have hs : sort_process_indices cache prev col desc
      = vecSortBy (ltG g desc)
          (if prev.length ≠ cache.length then List.range cache.length else prev) :=
    sort_eq_vecSortBy cache col g hK prev desc
  rw [sort_eq_vecSortBy cache col g hK (sort_process_indices cache prev col desc) (!desc)]
  rw [if_neg (by rw [hlen]; exact fun hc => hc rfl)]
  apply eq_of_perm_of_sortedB (leG g (!desc))
  · exact (vecSortBy_perm _ _).trans (List.reverse_perm _).symm
  · exact pairwise_vecSortBy g (!desc) _
  · rw [List.pairwise_reverse]
    have hp : (sort_process_indices cache prev col desc).Pairwise
        (fun a b => leG g desc a b = true) := by
      rw [hs]
      exact pairwise_vecSortBy g desc _
    refine hp.imp ?_
    intro a b hab
    rw [leG_flip]
    exact hab
  · intro a ha b hb h1 h2
    have ha' := (vecSortBy_perm _ _).subset ha
    have hb' := (vecSortBy_perm _ _).subset hb
    have hg : g a = g b := by
      rw [leG_flip] at h1 h2
      exact leG_anti h2 h1
    exact hinj a b (hmem a ha') (hmem b hb') hg

theorem inj_of_pairwise_ne {β : Type} [LinearOrder β] (cache : List ProcessInfo)
    (col : SortColumn) (g : Nat → β)
    (hK : ∀ a b : Nat,
      keyCmp col (cache.getD a dfltInfo) (cache.getD b dfltInfo) = cmp3 (g a) (g b))
    (hdist : cache.Pairwise fun p q => keyCmp col p q ≠ Ordering.eq) :
    ∀ a b : Nat, a < cache.length → b < cache.length → g a = g b → a = b := by
  intro a b ha hb hg
  by_contra hne
  have hpair := List.pairwise_iff_getElem.mp hdist
  rcases Nat.lt_or_ge a b with h | h
  · apply hpair a b ha hb h
    have hk := hK a b
    rw [List.getD_eq_getElem _ _ ha, List.getD_eq_getElem _ _ hb] at hk
    rw [hk, hg]
    exact cmp3_eq_eq_iff.mpr rfl
  · have h' : b < a := lt_of_le_of_ne h (Ne.symm hne)
    apply hpair b a hb ha h'
    have hk := hK b a
    rw [List.getD_eq_getElem _ _ hb, List.getD_eq_getElem _ _ ha] at hk
    rw [hk, hg]
    exact cmp3_eq_eq_iff.mpr rfl

/-! ### History-ring lemmas -/

theorem historyPush_length_le (h : List (ℚ × ℚ)) (x : ℚ × ℚ)
    (hh : h.length ≤ 100) : (historyPush 100 h x).length ≤ 100 := by
  unfold historyPush
  split <;> simp [List.length_append, List.length_drop] <;> omega

theorem pushAll_eq_drop (xs : List (ℚ × ℚ)) :
    pushAll xs = xs.drop (xs.length - 100) := by
  induction xs using List.reverseRecOn with
  | nil => rfl
  | append_singleton ys y ih =>
    have hstep : pushAll (ys ++ [y]) = historyPush 100 (pushAll ys) y := by
      show (ys ++ [y]).foldl (historyPush 100) [] = _
      rw [List.foldl_append]
      rfl
    rw [hstep, ih]
    unfold historyPush
    by_cases hc : 100 ≤ ys.length
    · rw [if_pos (by simp [List.length_drop]; omega)]
      rw [List.drop_drop]
      rw [List.drop_append_of_le_length (by simp [List.length_append])]
      have harith : ys.length - 100 + 1 = (ys ++ [y]).length - 100 := by
        simp [List.length_append]
        omega
      rw [harith]
    · have h0 : ys.length - 100 = 0 := by omega
      rw [h0, List.drop_zero]
      rw [if_neg (by omega)]
      have h1 : (ys ++ [y]).length - 100 = 0 := by
        simp [List.length_append]
        omega
      rw [h1, List.drop_zero]

/-! ### Tick-level refresh lemmas (shared) -/

theorem update_of_le (m : ResourceMonitor) (inp : TickInput)
    (h : effective_interval m inp.is_focused ≤ inp.now - m.last_update) :
    (m.update inp).last_update = inp.now ∧
    (m.update inp).processes = ingest m.process_filter inp.raw_processes ∧
    (m.update inp).process_indices =
      sort_process_indices (ingest m.process_filter inp.raw_processes)
        m.process_indices m.sort_column m.sort_descending ∧
    (m.update inp).history =
      historyPush m.max_history_points m.history
        (inp.total_cpu, (inp.used_memory : ℚ) / 1024 / 1024) := by
  simp only [ResourceMonitor.update]
  rw [if_neg (not_lt.mpr h)]
  exact ⟨rfl, rfl, rfl, rfl⟩

theorem update_of_lt (m : ResourceMonitor) (inp : TickInput)
    (h : inp.now - m.last_update < effective_interval m inp.is_focused) :
    m.update inp = m := by
  simp only [ResourceMonitor.update]
  rw [if_pos h]

/-! ### Claim theorems -/

/-- C1: for every base interval, the effective refresh interval computed
each tick equals the base when the window is focused and energy saving is
off, twice the base when focused with energy saving on, and five times the
base when unfocused regardless of the energy-saving flag. -/
theorem C1_effective_interval_table (m : ResourceMonitor) (f : Bool) :
    (f = true → m.energy_saving_mode = false →
      effective_interval m f = m.update_interval) ∧
    (f = true → m.energy_saving_mode = true →
      effective_interval m f = m.update_interval * 2) ∧
    (f = false → effective_interval m f = m.update_interval * 5) := by
  refine ⟨fun h1 h2 => ?_, fun h1 h2 => ?_, fun h1 => ?_⟩
  · simp [effective_interval, h1, h2]
  · simp [effective_interval, h1, h2]
  · simp [effective_interval, h1]

theorem C1_witness :
    effective_interval m0 true = m0.update_interval ∧
    effective_interval { m0 with energy_saving_mode := true } true
      = { m0 with energy_saving_mode := true }.update_interval * 2 ∧
    effective_interval m0 false = m0.update_interval * 5 :=
  ⟨(C1_effective_interval_table m0 true).1 rfl rfl,
   (C1_effective_interval_table { m0 with energy_saving_mode := true } true).2.1 rfl rfl,
   (C1_effective_interval_table m0 false).2.2 rfl⟩

/-- C2: a tick refreshes (re-ingests the cache, re-sorts the rank index and
pushes a history sample) exactly when the elapsed time since `last_update`
is at least the effective interval, stamping `last_update` with the current
instant exactly then, and leaves the whole state unchanged otherwise. -/
theorem C2_update_refresh_iff (m : ResourceMonitor) (inp : TickInput) :
    (effective_interval m inp.is_focused ≤ inp.now - m.last_update →
      (m.update inp).last_update = inp.now ∧
      (m.update inp).processes = ingest m.process_filter inp.raw_processes ∧
      (m.update inp).process_indices =
        sort_process_indices (ingest m.process_filter inp.raw_processes)
          m.process_indices m.sort_column m.sort_descending ∧
      (m.update inp).history =
        historyPush m.max_history_points m.history
          (inp.total_cpu, (inp.used_memory : ℚ) / 1024 / 1024)) ∧
    (inp.now - m.last_update < effective_interval m inp.is_focused →
      m.update inp = m) :=
  ⟨update_of_le m inp, update_of_lt m inp⟩

theorem C2_witness :
    (m0.update inpGo).last_update = inpGo.now ∧ m0.update inpSkip = m0 :=
  ⟨((C2_update_refresh_iff m0 inpGo).1
      (by norm_num [effective_interval, m0, inpGo])).1,
   (C2_update_refresh_iff m0 inpSkip).2
      (by norm_num [effective_interval, m0, inpSkip])⟩

/-- C3: a history push never grows the ring beyond 100 samples; a push at
capacity first evicts the oldest sample then appends the new one; and 150
pushes starting from empty leave exactly the 100 most recently pushed
samples in arrival order. -/
theorem C3_history_capacity :
    (∀ (h : List (ℚ × ℚ)) (x : ℚ × ℚ), h.length ≤ 100 →
      (historyPush 100 h x).length ≤ 100) ∧
    (∀ (h : List (ℚ × ℚ)) (x : ℚ × ℚ), h.length = 100 →
      historyPush 100 h x = h.drop 1 ++ [x]) ∧
    (∀ xs : List (ℚ × ℚ), xs.length = 150 →
      (pushAll xs).length = 100 ∧ pushAll xs = xs.drop 50) := by
  refine ⟨historyPush_length_le, fun h x hh => ?_, fun xs h150 => ?_⟩
  · unfold historyPush
    rw [if_pos (by omega)]
  · have hd := pushAll_eq_drop xs
    rw [hd]
    constructor
    · rw [List.length_drop]
      omega
    · rw [h150]

theorem C3_witness :
    (historyPush 100 [] ((0 : ℚ), (0 : ℚ))).length ≤ 100 ∧
    pushAll (List.replicate 150 ((1 : ℚ), (2 : ℚ)))
      = (List.replicate 150 ((1 : ℚ), (2 : ℚ))).drop 50 :=
  ⟨C3_history_capacity.1 [] ((0 : ℚ), (0 : ℚ)) (by simp),
   (C3_history_capacity.2.2 (List.replicate 150 ((1 : ℚ), (2 : ℚ))) (by simp)).2⟩

/-- C7: a tick never modifies the selection, whether it refreshes or
declines and whether or not the selected pid survives into the new
snapshot; header clicks (re-sorting) and filter edits also leave it
unchanged, while a row click writes exactly the clicked pid. -/
theorem C7_selection_stable :
    (∀ (m : ResourceMonitor) (inp : TickInput),
      (m.update inp).selected_pid = m.selected_pid) ∧
    (∀ (m : ResourceMonitor) (col : SortColumn),
      (header_click m col).selected_pid = m.selected_pid) ∧
    (∀ (m : ResourceMonitor) (s : String),
      (set_filter m s).selected_pid = m.selected_pid) ∧
    (∀ (m : ResourceMonitor) (pid : Nat),
      (select_row m pid).selected_pid = some pid) := by
  refine ⟨fun m inp => ?_, fun m col => ?_, fun m s => rfl, fun m pid => rfl⟩
  · simp only [ResourceMonitor.update]
    split
    · rfl
    · rfl
  · cases col <;> simp only [header_click] <;> split <;> rfl

/-- C8: clicking a header that differs from the current sort column selects
it with its key-specific default direction (descending for Cpu and Memory,
ascending for Name and Status); clicking the current column flips the
descending flag. -/
theorem C8_header_click (m : ResourceMonitor) (col : SortColumn) :
    (col ≠ m.sort_column →
      (header_click m col).sort_column = col ∧
      (header_click m col).sort_descending = defaultDescending col) ∧
    (col = m.sort_column →
      (header_click m col).sort_column = m.sort_column ∧
      (header_click m col).sort_descending = !m.sort_descending) := by
  constructor
  · intro h
    cases col <;>
      · simp only [header_click]
        rw [if_neg (fun hc => h hc.symm)]
        exact ⟨rfl, rfl⟩
  · intro h
    obtain ⟨ps, ds, pi, sc, sd, sp, ui, lu, hi, mx, pf, en⟩ := m
    subst h
    cases col <;> simp [header_click]

theorem C8_witness :
    ((header_click m0 SortColumn.Cpu).sort_column = SortColumn.Cpu ∧
      (header_click m0 SortColumn.Cpu).sort_descending
        = defaultDescending SortColumn.Cpu) ∧
    ((header_click m0 SortColumn.Name).sort_column = m0.sort_column ∧
      (header_click m0 SortColumn.Name).sort_descending = !m0.sort_descending) :=
  ⟨(C8_header_click m0 SortColumn.Cpu).1 (by decide),
   (C8_header_click m0 SortColumn.Name).2 rfl⟩

/-- C9: derived disk fields: used bytes are the saturating difference of
total and available, the usage percentage is 0 when the total is 0 and
used/total·100 otherwise; total 1000 with available 250 yields 75. -/
theorem C9_disk_derivation (d : RawDisk) :
    (diskOf d).used_space = d.total_space - d.available_space ∧
    (d.total_space = 0 → (diskOf d).usage_percent = 0) ∧
    (0 < d.total_space → (diskOf d).usage_percent =
      ((d.total_space - d.available_space : ℕ) : ℚ) / (d.total_space : ℚ) * 100) ∧
    (d.total_space = 1000 → d.available_space = 250 →
      (diskOf d).usage_percent = 75) := by
  refine ⟨rfl, fun h0 => ?_, fun hpos => ?_, fun ht ha => ?_⟩
  · simp [diskOf, h0]
  · simp [diskOf, hpos]
  · simp [diskOf, ht, ha]
    norm_num

theorem C9_witness : (diskOf diskSample).usage_percent = 75 :=
  (C9_disk_derivation diskSample).2.2.2 rfl rfl

/-- C10 fails as stated: with energy saving on (window focused), pressing
`Update now` moves `last_update` back by only the base interval while the
effective interval is twice the base, so an immediately following tick
declines to refresh and leaves the stamped time at `now - base ≠ now`. -/
theorem C10_counterexample :
    (force_update { m0 with energy_saving_mode := true } 10).update inpGo
      = force_update { m0 with energy_saving_mode := true } 10 ∧
    ((force_update { m0 with energy_saving_mode := true } 10).update
      inpGo).last_update ≠ inpGo.now := by
  constructor
  · exact update_of_lt _ _
      (by norm_num [effective_interval, force_update, m0, inpGo])
  · rw [update_of_lt _ _
      (by norm_num [effective_interval, force_update, m0, inpGo])]
    norm_num [force_update, m0, inpGo]

/-- C10 (amended): pressing `Update now` guarantees a refresh at the next
tick evaluation when the window is focused and energy saving is off (the
effective interval then equals the base interval the timestamp was moved
back by); with energy saving on or the window unfocused the next tick may
still decline. -/
theorem C10_force_refresh (m : ResourceMonitor) (t : ℚ) (inp : TickInput)
    (hq : t ≤ inp.now) (hf : inp.is_focused = true)
    (he : m.energy_saving_mode = false) :
    ((force_update m t).update inp).last_update = inp.now ∧
    ((force_update m t).update inp).processes
      = ingest m.process_filter inp.raw_processes := by
  have helo : effective_interval (force_update m t) inp.is_focused
      ≤ inp.now - (force_update m t).last_update := by
    have heff : effective_interval (force_update m t) inp.is_focused
        = m.update_interval := by
      simp [effective_interval, force_update, hf, he]
    rw [heff]
    show m.update_interval ≤ inp.now - (t - m.update_interval)
    linarith
  obtain ⟨h1, h2, -, -⟩ := update_of_le (force_update m t) inp helo
  exact ⟨h1, h2⟩

theorem C10_witness :
    ((force_update m0 10).update inpGo).last_update = inpGo.now :=
  (C10_force_refresh m0 10 inpGo (by norm_num [inpGo]) rfl rfl).1

/-- C6: when ranking by the Cpu key, any comparison involving a
non-comparable (NaN) cpu value resolves to `Equal`; the comparator is total
(one direction is always non-Greater), and on every cache contents the sort
yields a well-defined permutation of its index buffer rather than failing. -/
theorem C6_cpu_nan_equal :
    (∀ p q : ProcessInfo, p.cpu_usage = none ∨ q.cpu_usage = none →
      keyCmp SortColumn.Cpu p q = Ordering.eq) ∧
    (∀ p q : ProcessInfo,
      ordNotGt (keyCmp SortColumn.Cpu p q) = true ∨
      ordNotGt (keyCmp SortColumn.Cpu q p) = true) ∧
    (∀ (cache : List ProcessInfo) (prev : List Nat) (desc : Bool),
      List.Perm (sort_process_indices cache prev SortColumn.Cpu desc)
        (if prev.length ≠ cache.length then List.range cache.length else prev)) := by
  refine ⟨fun p q h => ?_, fun p q => ?_, fun cache prev desc => ?_⟩
  · show cpuCmp p.cpu_usage q.cpu_usage = Ordering.eq
    rcases h with h | h
    · rw [h]
      cases q.cpu_usage <;> rfl
    · rw [h]
      cases p.cpu_usage <;> rfl
  · cases hx : cpuCmp p.cpu_usage q.cpu_usage with
    | lt =>
      left
      show ordNotGt (cpuCmp p.cpu_usage q.cpu_usage) = true
      rw [hx]
      rfl
    | eq =>
      left
      show ordNotGt (cpuCmp p.cpu_usage q.cpu_usage) = true
      rw [hx]
      rfl
    | gt =>
      right
      show ordNotGt (cpuCmp q.cpu_usage p.cpu_usage) = true
      rw [← cpuCmp_swap p.cpu_usage q.cpu_usage, hx]
      rfl
  · exact vecSortBy_perm _ _

theorem C6_witness :
    keyCmp SortColumn.Cpu { dfltInfo with cpu_usage := none } dfltInfo
      = Ordering.eq :=
  C6_cpu_nan_equal.1 { dfltInfo with cpu_usage := none } dfltInfo (Or.inl rfl)

/-! ### Ingestion lemmas -/

theorem lowerSeq_nil : lowerSeq "" = [] := rfl

theorem containsSeq_nil : ∀ l : List Char, containsSeq [] l = true
  | [] => rfl
  | _ :: _ => rfl

theorem mkProcessInfo_name (r : RawProcess) (n : String) :
    (mkProcessInfo r n).name = n := rfl

theorem ingest_eq_filter (filt : String) (raw : List RawProcess) :
    ingest filt raw =
      (raw.map fun r => mkProcessInfo r (displayName r)).filter
        (fun p => containsSeq (lowerSeq filt) (lowerSeq p.name)) := by
  induction raw with
  | nil => rfl
  | cons r rs ih =>
    by_cases hf : filt = ""
    · subst hf
      simp [ingest, lowerSeq_nil, containsSeq_nil, mkProcessInfo_name, ih]
    · by_cases hc : containsSeq (lowerSeq filt) (lowerSeq (displayName r)) = true
      · simp [ingest, hf, hc, mkProcessInfo_name, ih]
      · simp [ingest, hf, hc, mkProcessInfo_name, ih]

/-- C5: ingestion keeps exactly the raw entries whose display name (the OS
name, or `"PID: <pid>"` when that is empty) contains the filter as a
case-insensitive substring, every entry when the filter is empty, in the
original relative order; the filter `"chrome"` keeps exactly `Chrome.exe`
and `chromedriver` out of the sample cache, and an empty-named entry with
pid 4242 gets display name `"PID: 4242"`. -/
theorem C5_ingest_spec :
    (∀ (raw : List RawProcess) (filt : String),
      ingest filt raw =
        (raw.map fun r => mkProcessInfo r (displayName r)).filter
          (fun p => containsSeq (lowerSeq filt) (lowerSeq p.name))) ∧
    (∀ raw : List RawProcess,
      ingest "" raw = raw.map fun r => mkProcessInfo r (displayName r)) ∧
    ingest "chrome" rawChrome =
      [mkProcessInfo
        { pid := 101, name := "Chrome.exe", cpu_usage := some 10, memory := 1000,
          status := "Runnable", user := none, cmd := [] } "Chrome.exe",
       mkProcessInfo
        { pid := 102, name := "chromedriver", cpu_usage := some 5, memory := 2000,
          status := "Runnable", user := none, cmd := [] } "chromedriver"] ∧
    displayName rawAnon = "PID: 4242" := by
  refine ⟨fun raw filt => ingest_eq_filter filt raw, fun raw => ?_, ?_, ?_⟩
  · rw [ingest_eq_filter]
    exact List.filter_eq_self.mpr
      (fun p _ => by rw [lowerSeq_nil, containsSeq_nil])
  · decide
  · decide

/-! ### Ranking: idempotence and direction flip -/

/-- C4 fails as stated once a NaN cpu value is present: on `cacheNaN3`,
whose cpu values are pairwise distinct, re-ranking with the descending flag
flipped yields `[0, 2, 1]`, not the exact reverse `[2, 1, 0]` of the
ascending order `[0, 1, 2]` (the NaN compares Equal to both comparable
values, so the ranking cannot tell where the NaN row belongs). -/
theorem C4_counterexample :
    List.Pairwise (fun p q => p.cpu_usage ≠ q.cpu_usage) cacheNaN3 ∧
    sort_process_indices cacheNaN3
        (sort_process_indices cacheNaN3 [0, 1, 2] SortColumn.Cpu false)
        SortColumn.Cpu true
      ≠ (sort_process_indices cacheNaN3 [0, 1, 2] SortColumn.Cpu false).reverse := by
  constructor
  · simp [cacheNaN3, dfltInfo, List.pairwise_cons]
  · decide

/-- C4 (amended): re-ranking twice with the same key and direction yields
the identical index sequence for every cache, NaN cpu values included; and
provided every cpu value in the cache is comparable when the sort key is
Cpu, the rank index is a permutation of the cache positions, and the
sort-key values are pairwise distinct (the comparator never answers Equal
on two distinct rows), re-ranking with the descending flag flipped yields
the exact reverse. -/
theorem C4_sort_idem_and_flip (cache : List ProcessInfo) (prev : List Nat)
    (col : SortColumn) (desc : Bool) :
    sort_process_indices cache (sort_process_indices cache prev col desc) col desc
      = sort_process_indices cache prev col desc ∧
    ((col = SortColumn.Cpu → ∀ p ∈ cache, p.cpu_usage ≠ none) →
      List.Perm prev (List.range cache.length) →
      cache.Pairwise (fun p q => keyCmp col p q ≠ Ordering.eq) →
      sort_process_indices cache (sort_process_indices cache prev col desc) col (!desc)
        = (sort_process_indices cache prev col desc).reverse) := by
  refine ⟨sort_core_idem cache prev col desc, fun hcpu hprev hdist => ?_⟩
  cases col with
  | Name =>
    exact sort_core_flip cache SortColumn.Name
      (fun i => (cache.getD i dfltInfo).name) (fun a b => rfl) prev desc hprev
      (inj_of_pairwise_ne cache SortColumn.Name
        (fun i => (cache.getD i dfltInfo).name) (fun a b => rfl) hdist)
  | Memory =>
    exact sort_core_flip cache SortColumn.Memory
      (fun i => (cache.getD i dfltInfo).memory_usage) (fun a b => rfl) prev desc hprev
      (inj_of_pairwise_ne cache SortColumn.Memory
        (fun i => (cache.getD i dfltInfo).memory_usage) (fun a b => rfl) hdist)
  | Status =>
    exact sort_core_flip cache SortColumn.Status
      (fun i => (cache.getD i dfltInfo).status) (fun a b => rfl) prev desc hprev
      (inj_of_pairwise_ne cache SortColumn.Status
        (fun i => (cache.getD i dfltInfo).status) (fun a b => rfl) hdist)
  | Cpu =>
    have hsome : ∀ i : Nat, (cache.getD i dfltInfo).cpu_usage
        = some ((cache.getD i dfltInfo).cpu_usage.getD 0) := by
      intro i
      by_cases hi : i < cache.length
      · rw [List.getD_eq_getElem cache dfltInfo hi]
        have hmem : cache[i] ∈ cache := List.getElem_mem hi
        have hne := hcpu rfl _ hmem
        cases hx : cache[i].cpu_usage with
        | none => exact absurd hx hne
        | some q => rfl
      · rw [List.getD_eq_default cache dfltInfo (not_lt.mp hi)]
        rfl
    have hK : ∀ a b : Nat,
        keyCmp SortColumn.Cpu (cache.getD a dfltInfo) (cache.getD b dfltInfo)
          = cmp3 ((cache.getD a dfltInfo).cpu_usage.getD 0)
              ((cache.getD b dfltInfo).cpu_usage.getD 0) := by
      intro a b
      show cpuCmp (cache.getD a dfltInfo).cpu_usage
          (cache.getD b dfltInfo).cpu_usage = _
      rw [hsome a, hsome b]
      rfl
    exact sort_core_flip cache SortColumn.Cpu
      (fun i => (cache.getD i dfltInfo).cpu_usage.getD 0) hK prev desc hprev
      (inj_of_pairwise_ne cache SortColumn.Cpu
        (fun i => (cache.getD i dfltInfo).cpu_usage.getD 0) hK hdist)

theorem C4_witness :
    sort_process_indices cacheCmp
        (sort_process_indices cacheCmp [0, 1, 2] SortColumn.Cpu false)
        SortColumn.Cpu false
      = sort_process_indices cacheCmp [0, 1, 2] SortColumn.Cpu false ∧
    sort_process_indices cacheCmp
        (sort_process_indices cacheCmp [0, 1, 2] SortColumn.Cpu false)
        SortColumn.Cpu true
      = (sort_process_indices cacheCmp [0, 1, 2] SortColumn.Cpu false).reverse := by
  have h := C4_sort_idem_and_flip cacheCmp [0, 1, 2] SortColumn.Cpu false
  exact ⟨h.1, h.2 (fun _ => by decide) (by decide) (by decide)⟩

end SysWatch
